import Mathlib

/-
Verification development for the flaky-test detection engine
(.github/scripts/flake.py): the iteration runner, the surefire-report
parser, the in-memory aggregation of failures, and the tracking-issue
reconciler.  Python dictionaries are modelled as insertion-ordered
association lists, subprocess/filesystem/tracker effects as explicit
inputs and outputs, and ElementTree elements as optional fields whose
text is itself optional (an empty XML element has absent text).
-/

namespace Flake

/-- One record appended for a test case that failed or errored in an
iteration; mirrors the dict literal at flake.py line 101:
{"iteration": iteration, "failure": failure}. -/
structure FailureRecord where
  iteration : Nat
  failure : String
  deriving DecidableEq, Repr

/-- One testcase element of a surefire report.  Each optional child
element (failure, error, system-out, system-err) is modelled as
an outer Option (element present?) of an inner Option String (the
element's text; ElementTree gives None for an empty element). -/
structure TestCaseEntry where
  classname : String
  name : String
  failureElem : Option (Option String)
  errorElem : Option (Option String)
  systemOut : Option (Option String)
  systemErr : Option (Option String)
  deriving DecidableEq, Repr

/-- The aggregated results: flake.py line 29's
defaultdict(classname -> defaultdict(name -> list of records)),
modelled as an insertion-ordered association list of association
lists, exactly as a Python dict preserves insertion order. -/
abbrev Results := List (String × List (String × List FailureRecord))

/-- A file written to the output directory: path and content (the
content of a captured-output artifact is the element's optional
text). -/
structure FileWrite where
  path : String
  content : Option String
  deriving DecidableEq, Repr

/-- The environment one loop iteration observes: the exit code of the
test command, its captured stdout/stderr, and the state of the fixed
report directory (none = the directory does not exist; otherwise its
files as (filename, parsed testcase list)). -/
structure IterationEnv where
  exitCode : Int
  stdout : String
  stderr : String
  reportDir : Option (List (String × List TestCaseEntry))
  deriving DecidableEq, Repr

/-- An issue held by the tracker: number and title (flake.py reads
i["title"] and i["number"]). -/
structure Issue where
  number : Nat
  title : String
  deriving DecidableEq, Repr

/-- The tracker API calls the reconciler can perform, in order. -/
inductive TrackerCall where
  | listIssues : String → TrackerCall
  | patchIssue : Nat → String → String → TrackerCall
  | postIssue : String → String → TrackerCall
  deriving DecidableEq, Repr

/-! String constants of the source, kept as named definitions. -/

/-- flake.py line 56: the fixed marker title. -/
def markerTitle : String := "[Bot] Flaky Test(s) Identified"

/-- flake.py line 57: the creator filter passed to the issue listing. -/
def creatorId : String := "app/github-actions"

def reportNamePre : String := "TEST-"

def reportNameExt : String := ".xml"

def fullOutName : String := "-full-stdout.txt"

def fullErrName : String := "-full-stderr.txt"

def dashStr : String := "-"

def dotStr : String := "."

def stdoutName : String := "stdout.txt"

def stderrName : String := "stderr.txt"

def errorName : String := "error.txt"

def lineA : String := "- "

def lineB : String := " failed "

def lineC : String := " times over "

def lineD : String := " iterations with "

def lineE : String := " unique failures.\n"

def headA : String := "Flaky test(s) found for commit "

def headB : String := ".\n See the uploaded artifacts from the action for details.\n\n"

/-- Python's substring test on character lists: does the first list
occur at the start of the second? -/
def charsStartWith : List Char → List Char → Bool
  | [], _ => true
  | _ :: _, [] => false
  | c :: cs, d :: ds => c == d && charsStartWith cs ds

/-- Python's `needle in hay` membership on character lists. -/
def charsContain : List Char → List Char → Bool
  | needle, [] => charsStartWith needle []
  | needle, d :: ds => charsStartWith needle (d :: ds) || charsContain needle ds

/-- Python's `needle in hay` on strings (flake.py line 59 uses
`title in i["title"]`). -/
def strIn (needle hay : String) : Bool := charsContain needle.data hay.data

/-- flake.py lines 91-98: the failure text chosen for a testcase.
If a failure element is present its text is taken (even when the
text is absent); otherwise, if an error element is present, its
text; a testcase whose chosen text is absent contributes nothing. -/
def selectedText (tc : TestCaseEntry) : Option String :=
  match tc.failureElem with
  | some t => t
  | none =>
    match tc.errorElem with
    | some t => t
    | none => none

/-- Append a record to the list held under the given test name,
creating the entry at the end when the name is new: the semantics of
defaultdict(list)[name].append(record) on an insertion-ordered dict. -/
def insertCase (inner : List (String × List FailureRecord)) (n : String)
    (r : FailureRecord) : List (String × List FailureRecord) :=
  match inner with
  | [] => [(n, [r])]
  | p :: rest =>
    if p.1 = n then (p.1, p.2 ++ [r]) :: rest
    else p :: insertCase rest n r

/-- Append a record under (classname, name): the two-level
defaultdict access previous_results[classname][name].append(record)
at flake.py line 100. -/
def insertRecord (res : Results) (c n : String) (r : FailureRecord) : Results :=
  match res with
  | [] => [(c, [(n, [r])])]
  | p :: rest =>
    if p.1 = c then (p.1, insertCase p.2 n r) :: rest
    else p :: insertRecord rest c n r

/-- Lookup in the inner dict: first entry with the given name. -/
def lookupCase : List (String × List FailureRecord) → String → Option (List FailureRecord)
  | [], _ => none
  | p :: rest, n => if p.1 = n then some p.2 else lookupCase rest n

/-- Lookup of a test identity in the two-level structure. -/
def lookupId : Results → String → String → Option (List FailureRecord)
  | [], _, _ => none
  | p :: rest, c, n => if p.1 = c then lookupCase p.2 n else lookupId rest c n

/-- Does the aggregated structure contain the identity? -/
def memId (res : Results) (c n : String) : Bool := (lookupId res c n).isSome

/-- The record-accumulation part of the parse loop over the testcase
elements of one report (flake.py lines 90-101). -/
def parseEntries (i : Nat) (res : Results) : List TestCaseEntry → Results
  | [] => res
  | tc :: rest =>
    parseEntries i
      (match selectedText tc with
       | none => res
       | some m => insertRecord res tc.classname tc.name ⟨i, m⟩) rest

/-- The per-testcase artifact writes of a COMPLETED entry (flake.py
lines 102-112): an optional per-test stdout file, an optional
per-test stderr file, and always the failure-text file, all named
{dir}{iteration}-{classname}.{name}-… with the 0-based iteration.
This is the crash-free projection: when a captured-output element is
present with ABSENT text, the real program raises TypeError on
f.write(None) and aborts — that path is carried by entryStepE below,
and the equivalence theorems relate the two on completed runs. -/
def entryWrites (i : Nat) (dir : String) (tc : TestCaseEntry) (msg : String) :
    List FileWrite :=
  (match tc.systemOut with
   | some t => [⟨dir ++ toString i ++ dashStr ++ tc.classname ++ dotStr ++ tc.name ++ dashStr ++ stdoutName, t⟩]
   | none => []) ++
  (match tc.systemErr with
   | some t => [⟨dir ++ toString i ++ dashStr ++ tc.classname ++ dotStr ++ tc.name ++ dashStr ++ stderrName, t⟩]
   | none => []) ++
  [⟨dir ++ toString i ++ dashStr ++ tc.classname ++ dotStr ++ tc.name ++ dashStr ++ errorName, some msg⟩]

/-- The file writes of the parse loop over one report's testcases. -/
def parseEntriesW (i : Nat) (dir : String) : List TestCaseEntry → List FileWrite
  | [] => []
  | tc :: rest =>
    (match selectedText tc with
     | none => []
     | some m => entryWrites i dir tc m) ++ parseEntriesW i dir rest

/-- Python's suffix test on character lists. -/
def charsEndWith (sfx l : List Char) : Bool :=
  charsStartWith sfx.reverse l.reverse

/-- Is a directory entry one of the report files considered
(flake.py line 87: startswith "TEST-" and endswith ".xml")? -/
def isReportName (f : String) : Bool :=
  charsStartWith reportNamePre.data f.data && charsEndWith reportNameExt.data f.data

/-- Parsing all (filtered) report files of the directory, threading
the aggregated results and collecting the artifact writes. -/
def parseFiles (i : Nat) (dir : String) (res : Results) :
    List (String × List TestCaseEntry) → Results × List FileWrite
  | [] => (res, [])
  | f :: rest =>
    let res2 := parseEntries i res f.2
    let ws := parseEntriesW i dir f.2
    let next := parseFiles i dir res2 rest
    (next.1, ws ++ next.2)

/-- flake.py lines 82-112, parse_test_results: when the fixed report
directory does not exist the function returns at once leaving the
results untouched; otherwise every file named TEST-….xml is parsed
and its failing testcases appended to the caller's results. -/
def parse_test_results (i : Nat) (dir : String) (res : Results)
    (reportDir : Option (List (String × List TestCaseEntry))) :
    Results × List FileWrite :=
  match reportDir with
  | none => (res, [])
  | some files => parseFiles i dir res (files.filter (fun f => isReportName f.1))

/-- The result of the iteration loop: the aggregated results, the
files written to the output directory, and how many times the test
command was executed. -/
structure RunResult where
  results : Results
  writes : List FileWrite
  executions : Nat
  deriving DecidableEq, Repr

/-- flake.py lines 38-41: the two whole-run capture files written on
a failing iteration, named with i+1 (the 1-based index) directly
appended to the output-directory string. -/
def fullWrites (dir : String) (i : Nat) (env : IterationEnv) : List FileWrite :=
  [⟨dir ++ toString (i + 1) ++ fullOutName, some env.stdout⟩,
   ⟨dir ++ toString (i + 1) ++ fullErrName, some env.stderr⟩]

/-- What a failing iteration does after the command returns
(flake.py lines 36-43): write the full stdout/stderr files, then
parse the report directory into the accumulated results. -/
def failStep (dir : String) (i : Nat) (env : IterationEnv) (res : Results) :
    Results × List FileWrite :=
  let p := parse_test_results i dir res env.reportDir
  (p.1, fullWrites dir i env ++ p.2)

/-- The loop of flake.py lines 31-47, with n iterations left and the
0-based counter currently at i: a zero exit code skips straight to
the next iteration; a nonzero exit code runs failStep and then, when
the fail-fast flag is set, breaks out of the loop. -/
def runAux (dir : String) (ff : Bool) (envs : Nat → IterationEnv) :
    Nat → Nat → Results → RunResult
  | 0, _, res => ⟨res, [], 0⟩
  | Nat.succ n, i, res =>
    if (envs i).exitCode ≠ 0 then
      let p := failStep dir i (envs i) res
      if ff then ⟨p.1, p.2, 1⟩
      else
        let rest := runAux dir ff envs n (i + 1) p.1
        ⟨rest.results, p.2 ++ rest.writes, rest.executions + 1⟩
    else
      let rest := runAux dir ff envs n (i + 1) res
      ⟨rest.results, rest.writes, rest.executions + 1⟩

/-- The whole iteration loop: N requested iterations starting from
counter 0 with empty aggregated results.  Crash-free projection of
the program; the faithful runner runLoopE below also carries the
TypeError abort of the captured-output writes, and agrees with this
one on every run that completes. -/
def runLoop (N : Nat) (ff : Bool) (envs : Nat → IterationEnv) (dir : String) :
    RunResult :=
  runAux dir ff envs N 0 []

/-- flake.py line 68: the number of distinct failure-message texts of
one identity's record list, len(set(map(lambda f: f["failure"], …))). -/
def uniqueFailureCount (failures : List FailureRecord) : Nat :=
  ((failures.map (fun f => f.failure)).dedup).length

/-- flake.py lines 67-69: the summary line appended to the body for
one test identity. -/
def bodyLine (c n : String) (iters : Nat) (failures : List FailureRecord) : String :=
  lineA ++ c ++ dotStr ++ n ++ lineB ++ toString failures.length ++ lineC ++
    toString iters ++ lineD ++ toString (uniqueFailureCount failures) ++ lineE

/-- flake.py lines 63-64: the body header naming the commit. -/
def headerFor (sha : String) : String := headA ++ sha ++ headB

/-- flake.py lines 63-69: the issue body, built by appending one line
per (classname, testcase) entry of the nested results dict, in the
dict's iteration order. -/
def buildBody (results : Results) (iters : Nat) (sha : String) : String :=
  results.foldl
    (fun acc ci => ci.2.foldl (fun acc2 nf => acc2 ++ bodyLine ci.1 nf.1 iters nf.2) acc)
    (headerFor sha)

/-- flake.py lines 49-79: the reconciliation phase after the loop.
With empty results it returns at once, performing no tracker call.
Otherwise it lists the creator's issues; when the listing status is
200 the issues whose title CONTAINS the marker title are kept,
otherwise the listing is treated as empty; the first kept issue, if
any, is patched with the fresh title and body, else a new issue is
posted. -/
def reconcile (results : Results) (iters : Nat) (sha : String)
    (listStatus : Nat) (listed : List Issue) : List TrackerCall :=
  if results = [] then []
  else
    let existing :=
      if listStatus = 200 then listed.filter (fun is => strIn markerTitle is.title)
      else []
    let body := buildBody results iters sha
    match existing with
    | is :: _ => [TrackerCall.listIssues creatorId,
                  TrackerCall.patchIssue is.number markerTitle body]
    | [] => [TrackerCall.listIssues creatorId,
             TrackerCall.postIssue markerTitle body]

/-- The listing response the tracker returns for the creator query. -/
structure TrackerEnv where
  listStatus : Nat
  listed : List Issue
  deriving DecidableEq, Repr

/-- The whole of flake.py's main: run the loop, then reconcile the
aggregated results against the tracker (the iteration count of the
summary lines is the same N the loop was asked for). -/
def flakeMain (N : Nat) (ff : Bool) (envs : Nat → IterationEnv)
    (dir sha : String) (tr : TrackerEnv) : RunResult × List TrackerCall :=
  let run := runLoop N ff envs dir
  (run, reconcile run.results N sha tr.listStatus tr.listed)

/-! The faithful, fallible semantics.  The captured-output writes at
flake.py lines 104-109 are unguarded: f.write(element.text) with a
present element whose text is absent executes f.write(None), which
raises TypeError; the script has no try/except, so the exception
aborts the entire invocation.  The definitions above (entryWrites,
parse_test_results, runLoop) are the crash-free projection of the
program; the E-definitions below carry the abort explicitly, and the
equivalence theorems show both agree on every run that completes. -/

/-- The outcome of a fallible processing step: completed with a value
and the files written, or aborted by an uncaught exception after the
files written so far. -/
inductive StepOut (α : Type) where
  | ok : α → List FileWrite → StepOut α
  | crash : List FileWrite → StepOut α
  deriving DecidableEq, Repr

/-- The files a step wrote, whether it completed or aborted. -/
def stepWrites {α : Type} : StepOut α → List FileWrite
  | StepOut.ok _ ws => ws
  | StepOut.crash ws => ws

/-- Faithful processing of one testcase (flake.py lines 90-112): the
record is appended first (line 100), then the captured-output writes
run unguarded.  A system-out or system-err element present with
absent text creates its file empty (content none) and then raises
TypeError on f.write(None), aborting the invocation: later files of
this entry are never written and the in-memory results die with the
process. -/
def entryStepE (i : Nat) (dir : String) (res : Results) (tc : TestCaseEntry) :
    StepOut Results :=
  match selectedText tc with
  | none => StepOut.ok res []
  | some msg =>
    let res2 := insertRecord res tc.classname tc.name ⟨i, msg⟩
    let base := dir ++ toString i ++ dashStr ++ tc.classname ++ dotStr ++ tc.name ++ dashStr
    match tc.systemOut with
    | some none => StepOut.crash [⟨base ++ stdoutName, none⟩]
    | some (some t) =>
      match tc.systemErr with
      | some none =>
        StepOut.crash [⟨base ++ stdoutName, some t⟩, ⟨base ++ stderrName, none⟩]
      | some (some u) =>
        StepOut.ok res2 [⟨base ++ stdoutName, some t⟩, ⟨base ++ stderrName, some u⟩,
          ⟨base ++ errorName, some msg⟩]
      | none =>
        StepOut.ok res2 [⟨base ++ stdoutName, some t⟩, ⟨base ++ errorName, some msg⟩]
    | none =>
      match tc.systemErr with
      | some none => StepOut.crash [⟨base ++ stderrName, none⟩]
      | some (some u) =>
        StepOut.ok res2 [⟨base ++ stderrName, some u⟩, ⟨base ++ errorName, some msg⟩]
      | none => StepOut.ok res2 [⟨base ++ errorName, some msg⟩]

/-- The fallible parse loop over one report's testcases: an abort
stops the loop and propagates. -/
def parseEntriesE (i : Nat) (dir : String) :
    Results → List TestCaseEntry → StepOut Results
  | res, [] => StepOut.ok res []
  | res, tc :: rest =>
    match entryStepE i dir res tc with
    | StepOut.crash ws => StepOut.crash ws
    | StepOut.ok res2 ws =>
      match parseEntriesE i dir res2 rest with
      | StepOut.ok r ws2 => StepOut.ok r (ws ++ ws2)
      | StepOut.crash ws2 => StepOut.crash (ws ++ ws2)

/-- The fallible parse over the directory's (filtered) report files. -/
def parseFilesE (i : Nat) (dir : String) :
    Results → List (String × List TestCaseEntry) → StepOut Results
  | res, [] => StepOut.ok res []
  | res, f :: rest =>
    match parseEntriesE i dir res f.2 with
    | StepOut.crash ws => StepOut.crash ws
    | StepOut.ok res2 ws =>
      match parseFilesE i dir res2 rest with
      | StepOut.ok r ws2 => StepOut.ok r (ws ++ ws2)
      | StepOut.crash ws2 => StepOut.crash (ws ++ ws2)

/-- Fallible parse_test_results: a missing report directory still
returns at once with nothing written. -/
def parse_test_resultsE (i : Nat) (dir : String) (res : Results)
    (reportDir : Option (List (String × List TestCaseEntry))) : StepOut Results :=
  match reportDir with
  | none => StepOut.ok res []
  | some files => parseFilesE i dir res (files.filter (fun f => isReportName f.1))

/-- Fallible failing-iteration step: the two full-output files are
written before the parse, so they exist even when the parse aborts. -/
def failStepE (dir : String) (i : Nat) (env : IterationEnv) (res : Results) :
    StepOut Results :=
  match parse_test_resultsE i dir res env.reportDir with
  | StepOut.ok r ws => StepOut.ok r (fullWrites dir i env ++ ws)
  | StepOut.crash ws => StepOut.crash (fullWrites dir i env ++ ws)

/-- The outcome of the whole loop: completed, or aborted by the
TypeError with the files written so far and the number of command
executions performed before the process died. -/
inductive RunOut where
  | ok : RunResult → RunOut
  | crash : List FileWrite → Nat → RunOut
  deriving DecidableEq, Repr

/-- The loop of flake.py lines 31-47 with the abort carried
explicitly: a crash during one iteration's parse ends the invocation
(no later iterations, no reconciliation). -/
def runAuxE (dir : String) (ff : Bool) (envs : Nat → IterationEnv) :
    Nat → Nat → Results → RunOut
  | 0, _, res => RunOut.ok ⟨res, [], 0⟩
  | Nat.succ n, i, res =>
    if (envs i).exitCode ≠ 0 then
      match failStepE dir i (envs i) res with
      | StepOut.crash ws => RunOut.crash ws 1
      | StepOut.ok res2 ws =>
        if ff then RunOut.ok ⟨res2, ws, 1⟩
        else
          match runAuxE dir ff envs n (i + 1) res2 with
          | RunOut.ok rest =>
            RunOut.ok ⟨rest.results, ws ++ rest.writes, rest.executions + 1⟩
          | RunOut.crash cws ce => RunOut.crash (ws ++ cws) (ce + 1)
    else
      match runAuxE dir ff envs n (i + 1) res with
      | RunOut.ok rest => RunOut.ok ⟨rest.results, rest.writes, rest.executions + 1⟩
      | RunOut.crash cws ce => RunOut.crash cws (ce + 1)

/-- The whole faithful iteration loop. -/
def runLoopE (N : Nat) (ff : Bool) (envs : Nat → IterationEnv) (dir : String) :
    RunOut :=
  runAuxE dir ff envs N 0 []

theorem entryStepE_ok (i : Nat) (dir : String) (res : Results) (tc : TestCaseEntry)
    (r : Results) (ws : List FileWrite)
    (h : entryStepE i dir res tc = StepOut.ok r ws) :
    r = (match selectedText tc with
         | none => res
         | some m => insertRecord res tc.classname tc.name ⟨i, m⟩)
    ∧ ws = (match selectedText tc with
            | none => []
            | some m => entryWrites i dir tc m) := by
  cases hsel : selectedText tc with
  | none =>
    simp only [entryStepE, hsel] at h
    obtain ⟨hr, hw⟩ := (StepOut.ok.injEq _ _ _ _).mp h
    exact ⟨hr.symm, hw.symm⟩
  | some msg =>
    rcases hso : tc.systemOut with _ | t
    · rcases hse : tc.systemErr with _ | u
      · simp only [entryStepE, hsel, hso, hse] at h
        obtain ⟨hr, hw⟩ := (StepOut.ok.injEq _ _ _ _).mp h
        refine ⟨hr.symm, ?_⟩
        rw [← hw]
        simp [entryWrites, hso, hse]
      · rcases u with _ | u
        · simp only [entryStepE, hsel, hso, hse] at h
          exact absurd h (by simp)
        · simp only [entryStepE, hsel, hso, hse] at h
          obtain ⟨hr, hw⟩ := (StepOut.ok.injEq _ _ _ _).mp h
          refine ⟨hr.symm, ?_⟩
          rw [← hw]
          simp [entryWrites, hso, hse]
    · rcases t with _ | t
      · simp only [entryStepE, hsel, hso] at h
        exact absurd h (by simp)
      · rcases hse : tc.systemErr with _ | u
        · simp only [entryStepE, hsel, hso, hse] at h
          obtain ⟨hr, hw⟩ := (StepOut.ok.injEq _ _ _ _).mp h
          refine ⟨hr.symm, ?_⟩
          rw [← hw]
          simp [entryWrites, hso, hse]
        · rcases u with _ | u
          · simp only [entryStepE, hsel, hso, hse] at h
            exact absurd h (by simp)
          · simp only [entryStepE, hsel, hso, hse] at h
            obtain ⟨hr, hw⟩ := (StepOut.ok.injEq _ _ _ _).mp h
            refine ⟨hr.symm, ?_⟩
            rw [← hw]
            simp [entryWrites, hso, hse]

theorem parseEntriesE_ok (i : Nat) (dir : String) :
    ∀ (es : List TestCaseEntry) (res r : Results) (ws : List FileWrite),
      parseEntriesE i dir res es = StepOut.ok r ws →
      parseEntries i res es = r ∧ parseEntriesW i dir es = ws := by
  intro es
  induction es with
  | nil =>
    intro res r ws h
    simp only [parseEntriesE] at h
    obtain ⟨hr, hw⟩ := (StepOut.ok.injEq _ _ _ _).mp h
    exact ⟨hr, hw⟩
  | cons tc rest ih =>
    intro res r ws h
    cases hstep : entryStepE i dir res tc with
    | crash ws1 =>
      simp only [parseEntriesE, hstep] at h
      exact StepOut.noConfusion h
    | ok res2 ws1 =>
      cases hrest : parseEntriesE i dir res2 rest with
      | crash ws2 =>
        simp only [parseEntriesE, hstep, hrest] at h
        exact StepOut.noConfusion h
      | ok r2 ws2 =>
        simp only [parseEntriesE, hstep, hrest, StepOut.ok.injEq] at h
        obtain ⟨hr, hw⟩ := h
        obtain ⟨hres2, hws1⟩ := entryStepE_ok i dir res tc res2 ws1 hstep
        obtain ⟨ihr, ihw⟩ := ih res2 r2 ws2 hrest
        constructor
        · show parseEntries i
            (match selectedText tc with
             | none => res
             | some m => insertRecord res tc.classname tc.name ⟨i, m⟩) rest = r
          rw [← hres2, ihr, hr]
        · show (match selectedText tc with
                | none => []
                | some m => entryWrites i dir tc m) ++ parseEntriesW i dir rest = ws
          rw [← hws1, ihw, hw]

theorem parseFilesE_ok (i : Nat) (dir : String) :
    ∀ (files : List (String × List TestCaseEntry)) (res r : Results)
      (ws : List FileWrite),
      parseFilesE i dir res files = StepOut.ok r ws →
      parseFiles i dir res files = (r, ws) := by
  intro files
  induction files with
  | nil =>
    intro res r ws h
    simp only [parseFilesE] at h
    obtain ⟨hr, hw⟩ := (StepOut.ok.injEq _ _ _ _).mp h
    rw [← hr, ← hw]
    rfl
  | cons f rest ih =>
    intro res r ws h
    cases hstep : parseEntriesE i dir res f.2 with
    | crash ws1 =>
      simp only [parseFilesE, hstep] at h
      exact StepOut.noConfusion h
    | ok res2 ws1 =>
      cases hrest : parseFilesE i dir res2 rest with
      | crash ws2 =>
        simp only [parseFilesE, hstep, hrest] at h
        exact StepOut.noConfusion h
      | ok r2 ws2 =>
        simp only [parseFilesE, hstep, hrest, StepOut.ok.injEq] at h
        obtain ⟨hr, hw⟩ := h
        obtain ⟨hres2, hws1⟩ := parseEntriesE_ok i dir f.2 res res2 ws1 hstep
        have hnext := ih res2 r2 ws2 hrest
        simp only [parseFiles, hres2, hws1, hnext, hr, hw]

theorem parse_test_resultsE_ok (i : Nat) (dir : String) (res : Results)
    (d : Option (List (String × List TestCaseEntry))) (r : Results)
    (ws : List FileWrite) (h : parse_test_resultsE i dir res d = StepOut.ok r ws) :
    parse_test_results i dir res d = (r, ws) := by
  cases d with
  | none =>
    simp only [parse_test_resultsE] at h
    obtain ⟨hr, hw⟩ := (StepOut.ok.injEq _ _ _ _).mp h
    rw [← hr, ← hw]
    rfl
  | some files => exact parseFilesE_ok i dir _ res r ws h

theorem failStepE_ok (dir : String) (i : Nat) (env : IterationEnv) (res : Results)
    (r : Results) (ws : List FileWrite)
    (h : failStepE dir i env res = StepOut.ok r ws) :
    failStep dir i env res = (r, ws) := by
  cases hp : parse_test_resultsE i dir res env.reportDir with
  | crash ws1 =>
    simp only [failStepE, hp] at h
    exact StepOut.noConfusion h
  | ok r1 ws1 =>
    simp only [failStepE, hp, StepOut.ok.injEq] at h
    obtain ⟨hr, hw⟩ := h
    have := parse_test_resultsE_ok i dir res env.reportDir r1 ws1 hp
    unfold failStep
    rw [this, ← hr, ← hw]

theorem runAuxE_ok (dir : String) (ff : Bool) (envs : Nat → IterationEnv) :
    ∀ (n i : Nat) (res : Results) (r : RunResult),
      runAuxE dir ff envs n i res = RunOut.ok r →
      runAux dir ff envs n i res = r := by
  intro n
  induction n with
  | zero =>
    intro i res r h
    simp only [runAuxE, RunOut.ok.injEq] at h
    rw [← h]
    rfl
  | succ m ih =>
    intro i res r h
    unfold runAux
    by_cases hx : (envs i).exitCode ≠ 0
    · rw [if_pos hx]
      cases hfs : failStepE dir i (envs i) res with
      | crash ws =>
        simp only [runAuxE, if_pos hx, hfs] at h
        exact RunOut.noConfusion h
      | ok res2 ws =>
        have hfseq := failStepE_ok dir i (envs i) res res2 ws hfs
        by_cases hff : ff
        · rw [if_pos hff]
          simp only [runAuxE, if_pos hx, hfs, if_pos hff, RunOut.ok.injEq] at h
          rw [hfseq, ← h]
        · rw [if_neg hff]
          cases hrest : runAuxE dir ff envs m (i + 1) res2 with
          | crash cws ce =>
            simp only [runAuxE, if_pos hx, hfs, if_neg hff, hrest] at h
            exact RunOut.noConfusion h
          | ok rest =>
            simp only [runAuxE, if_pos hx, hfs, if_neg hff, hrest,
              RunOut.ok.injEq] at h
            rw [hfseq, ih (i + 1) res2 rest hrest, ← h]
    · rw [if_neg hx]
      cases hrest : runAuxE dir ff envs m (i + 1) res with
      | crash cws ce =>
        simp only [runAuxE, if_neg hx, hrest] at h
        exact RunOut.noConfusion h
      | ok rest =>
        simp only [runAuxE, if_neg hx, hrest, RunOut.ok.injEq] at h
        rw [ih (i + 1) res rest hrest, ← h]

theorem runLoopE_ok (N : Nat) (ff : Bool) (envs : Nat → IterationEnv)
    (dir : String) (r : RunResult) (h : runLoopE N ff envs dir = RunOut.ok r) :
    runLoop N ff envs dir = r :=
  runAuxE_ok dir ff envs N 0 [] r h

/-! Concrete inputs reused by several counterexamples and witnesses. -/

/-- A smallest non-empty aggregated result: ClassA.testX failed once. -/
def oneFailResults : Results := [("ClassA", [("testX", [⟨0, "boom"⟩])])]

/-- An issue whose title strictly CONTAINS the marker title. -/
def archivedIssue : Issue := ⟨7, "[Bot] Flaky Test(s) Identified - archived"⟩

/-- Is a tracker call a create (POST)? -/
def isCreateCall : TrackerCall → Bool
  | TrackerCall.postIssue _ _ => true
  | _ => false

/-- An iteration environment that always passes. -/
def envsAllPass : Nat → IterationEnv := fun _ => ⟨0, "", "", none⟩

/-- A testcase entry for A.t with failure text m and no captured output. -/
def entAt : TestCaseEntry := ⟨"A", "t", some (some "m"), none, none, none⟩

/-- An environment whose every iteration fails with one report file
holding the single failing testcase A.t. -/
def envsOneCase : Nat → IterationEnv :=
  fun _ => ⟨1, "o", "e", some [("TEST-A.xml", [entAt])]⟩

/-- A failing testcase whose system-out element is present with
absent text: processing it executes f.write(None) at flake.py line
106, raising TypeError. -/
def crashEnt : TestCaseEntry := ⟨"A", "t", some (some "m"), none, some none, none⟩

/-- An environment whose every iteration fails and whose report
holds the aborting testcase crashEnt. -/
def envsCrash : Nat → IterationEnv :=
  fun _ => ⟨1, "o", "e", some [("TEST-A.xml", [crashEnt])]⟩

/-- One failing iteration whose report lists A.t1, B.t2, A.t3, A.t1
(the identity A.t1 twice), no captured output anywhere. -/
def envsDup : Nat → IterationEnv :=
  fun _ => ⟨1, "o", "e", some [("TEST-A.xml",
    [⟨"A", "t1", some (some "m1"), none, none, none⟩,
     ⟨"B", "t2", some (some "m2"), none, none, none⟩,
     ⟨"A", "t3", some (some "m3"), none, none, none⟩,
     ⟨"A", "t1", some (some "m4"), none, none, none⟩])]⟩

/-- C8: if the fixed report directory does not exist when the parser
is invoked, it returns without any effect: the aggregated results are
unchanged and no file is written. -/
theorem c8_missing_report_dir (i : Nat) (dir : String) (res : Results) :
    parse_test_results i dir res none = (res, []) := rfl

/-- C7: a run whose aggregated results are empty after the loop
performs no tracker call at all: no listing, no create, no update. -/
theorem c7_empty_results_no_calls (N : Nat) (ff : Bool) (envs : Nat → IterationEnv)
    (dir sha : String) (tr : TrackerEnv)
    (h : (runLoop N ff envs dir).results = []) :
    (flakeMain N ff envs dir sha tr).2 = [] := by
  show reconcile (runLoop N ff envs dir).results N sha tr.listStatus tr.listed = []
  rw [h]
  rfl

/-- C7 witness: a two-iteration all-pass run performs no tracker call. -/
theorem c7_witness :
    (flakeMain 2 false envsAllPass "o/" "sha" ⟨200, []⟩).2 = [] :=
  c7_empty_results_no_calls 2 false envsAllPass "o/" "sha" ⟨200, []⟩ (by decide)

/-- C10: when a failure element is present, its (possibly absent)
text is the chosen failure message and the error element is ignored
entirely. -/
theorem c10_failure_elem_shadows_error (e : TestCaseEntry) (t : Option String)
    (h : e.failureElem = some t) : selectedText e = t := by
  unfold selectedText
  rw [h]

/-- C10 witness: an entry whose failure element has absent text
yields no message (hence no record) even though its error element
carries the text "boom". -/
theorem c10_witness :
    selectedText ⟨"A", "t", some none, some (some "boom"), none, none⟩ = none :=
  c10_failure_elem_shadows_error ⟨"A", "t", some none, some (some "boom"), none, none⟩ none rfl

/-- C6 counterexample: an entry that does contain a failure element
(with absent text, as ElementTree reports for an empty element)
contributes no record, so element presence alone does not signal the
outcome as the claim states. -/
theorem c6_counterexample :
    (selectedText ⟨"A", "t", some none, none, none, none⟩).isSome = false ∧
    (⟨"A", "t", some none, none, none, none⟩ : TestCaseEntry).failureElem.isSome = true := by
  constructor
  · rfl
  · rfl

/-- C6 (amended): a record is contributed exactly when the failure
element is present with non-absent text, or the failure element is
absent and the error element is present with non-absent text; the
message is that text (it may be the empty string); an entry with
neither element, or whose selected element has absent text, yields
no record. -/
theorem c6_amended_text_presence_decides (e : TestCaseEntry) :
    ((selectedText e).isSome ↔
      (∃ m, e.failureElem = some (some m)) ∨
        (e.failureElem = none ∧ ∃ m, e.errorElem = some (some m)))
    ∧ (∀ m, e.failureElem = some (some m) → selectedText e = some m)
    ∧ (e.failureElem = none → e.errorElem = none → selectedText e = none) := by
  obtain ⟨c, n, f, er, so, se⟩ := e
  refine ⟨?_, ?_, ?_⟩
  · rcases f with _ | tf
    · rcases er with _ | te
      · simp [selectedText]
      · rcases te with _ | m <;> simp [selectedText]
    · rcases tf with _ | m <;> simp [selectedText]
  · intro m hm
    simp only at hm
    subst hm
    rfl
  · intro hf he
    simp only at hf he
    subst hf
    subst he
    rfl

/-- C6 witness: a failure element whose text is the empty string
still yields a record whose message is the empty string. -/
theorem c6_witness :
    selectedText ⟨"A", "t", some (some ""), some (some "x"), none, none⟩ = some "" :=
  (c6_amended_text_presence_decides ⟨"A", "t", some (some ""), some (some "x"), none, none⟩).2.1 "" rfl

/-- C2 counterexample: with non-empty results and a non-success
status (404) from the issue listing, the invocation does not stop:
the listing is treated as empty and a create (POST) is attempted. -/
theorem c2_counterexample :
    reconcile oneFailResults 5 "deadbeef" 404 [] =
      [TrackerCall.listIssues creatorId,
       TrackerCall.postIssue markerTitle (buildBody oneFailResults 5 "deadbeef")]
    ∧ (reconcile oneFailResults 5 "deadbeef" 404 []).any isCreateCall = true := by
  constructor
  · rfl
  · rfl

/-- C2 (amended): a raised transport exception would propagate, but a
non-success status from the issue listing is swallowed: the listing
is treated as empty and the reconciler proceeds to create a new
issue. -/
theorem c2_amended_bad_status_creates (results : Results) (iters : Nat) (sha : String)
    (st : Nat) (listed : List Issue) (hne : results ≠ []) (hst : st ≠ 200) :
    reconcile results iters sha st listed =
      [TrackerCall.listIssues creatorId,
       TrackerCall.postIssue markerTitle (buildBody results iters sha)] := by
  unfold reconcile
  rw [if_neg hne, if_neg hst]

/-- C2 witness: status 500 with a listed issue bearing the exact
marker title still ends in a create, the listing being discarded. -/
theorem c2_witness :
    reconcile oneFailResults 2 "abc" 500 [⟨3, markerTitle⟩] =
      [TrackerCall.listIssues creatorId,
       TrackerCall.postIssue markerTitle (buildBody oneFailResults 2 "abc")] :=
  c2_amended_bad_status_creates oneFailResults 2 "abc" 500 [⟨3, markerTitle⟩]
    (by decide) (by decide)

/-- C1 counterexample: an existing issue whose title strictly
contains (but does not equal) the marker title is selected and
patched, whereas the claim requires a new issue to be created when no
title exactly equals the marker. -/
theorem c1_counterexample :
    archivedIssue.title ≠ markerTitle ∧
    reconcile oneFailResults 5 "abc" 200 [archivedIssue] =
      [TrackerCall.listIssues creatorId,
       TrackerCall.patchIssue 7 markerTitle (buildBody oneFailResults 5 "abc")] := by
  constructor
  · decide
  · rfl

/-- The first element of a filter is the first element satisfying the
predicate. -/
theorem head?_filter_eq_find? {α : Type} (p : α → Bool) (l : List α) :
    (l.filter p).head? = l.find? p := by
  induction l with
  | nil => rfl
  | cons x rest ih =>
    by_cases hx : p x = true
    · simp [List.filter_cons, List.find?_cons, hx]
    · simp only [Bool.not_eq_true] at hx
      simp [List.filter_cons, List.find?_cons, hx, ih]

/-- C1 (amended): with a successful listing, the reconciler selects
the FIRST issue whose title CONTAINS the marker title as a substring
and patches it; only when no listed title contains the marker is a
new issue created. -/
theorem c1_amended_substring_selection (results : Results) (iters : Nat) (sha : String)
    (listed : List Issue) (hne : results ≠ []) :
    reconcile results iters sha 200 listed =
      TrackerCall.listIssues creatorId ::
        (match listed.find? (fun is => strIn markerTitle is.title) with
         | some is => [TrackerCall.patchIssue is.number markerTitle (buildBody results iters sha)]
         | none => [TrackerCall.postIssue markerTitle (buildBody results iters sha)]) := by
  unfold reconcile
  rw [if_neg hne, if_pos rfl]
  have hhead := head?_filter_eq_find? (fun is => strIn markerTitle is.title) listed
  cases hE : listed.filter (fun is => strIn markerTitle is.title) with
  | nil =>
    rw [hE] at hhead
    rw [← hhead]
    rfl
  | cons is rest =>
    rw [hE] at hhead
    rw [← hhead]
    rfl

/-- C1 witness: among two listed issues, the first whose title
contains the marker (here the second issue, number 7, with the exact
marker title) is the one patched. -/
theorem c1_witness :
    reconcile oneFailResults 3 "s" 200 [⟨9, "unrelated"⟩, ⟨7, markerTitle⟩] =
      [TrackerCall.listIssues creatorId,
       TrackerCall.patchIssue 7 markerTitle (buildBody oneFailResults 3 "s")] := by
  have h := c1_amended_substring_selection oneFailResults 3 "s"
    [⟨9, "unrelated"⟩, ⟨7, markerTitle⟩] (by decide)
  exact h.trans (by rfl)

/-- C9 counterexample: on failing iteration with 0-based index 0, the
whole-run capture files are written under index 1 while the per-test
file is written under index 0 — the names do not share one iteration
index, and the full-stdout name is not the 0-based one the claim
gives.  The run completes (runLoopE agrees), so this write list is
the program's real one. -/
theorem c9_counterexample :
    runLoopE 1 false envsOneCase "out/" = RunOut.ok (runLoop 1 false envsOneCase "out/")
    ∧ (runLoop 1 false envsOneCase "out/").writes.map FileWrite.path =
      ["out/1-full-stdout.txt", "out/1-full-stderr.txt", "out/0-A.t-error.txt"]
    ∧ ("out/1-full-stdout.txt" : String) ≠ "out/0-full-stdout.txt" := by
  refine ⟨by decide, by decide, by decide⟩

/-- C9 (amended): on a failing iteration with 0-based index i, the
two full-output capture files are written first, named with the
1-based index i+1 ({dir}{i+1}-full-stdout.txt and -full-stderr.txt),
whether or not the parse afterwards aborts; and every per-test
artifact the parse attempts — including the captured-output file
created empty just before a TypeError abort on an element with
absent text — is named with the 0-based index i, as
{dir}{i}-{class}.{case}- followed by stdout.txt, stderr.txt or
error.txt.  The two groups of one iteration thus carry different
indices. -/
theorem c9_amended_indices (dir : String) (i : Nat) (env : IterationEnv) (res : Results)
    (h : env.exitCode ≠ 0) :
    stepWrites (failStepE dir i env res) =
      ⟨dir ++ toString (i + 1) ++ fullOutName, some env.stdout⟩ ::
      ⟨dir ++ toString (i + 1) ++ fullErrName, some env.stderr⟩ ::
      stepWrites (parse_test_resultsE i dir res env.reportDir)
    ∧ ∀ tc res2 w, w ∈ stepWrites (entryStepE i dir res2 tc) →
        ∃ sfx, (sfx = stdoutName ∨ sfx = stderrName ∨ sfx = errorName) ∧
          w.path = dir ++ toString i ++ dashStr ++ tc.classname ++ dotStr ++ tc.name ++ dashStr ++ sfx := by
  constructor
  · cases hp : parse_test_resultsE i dir res env.reportDir with
    | ok r ws => simp [failStepE, hp, stepWrites, fullWrites]
    | crash ws => simp [failStepE, hp, stepWrites, fullWrites]
  · intro tc res2 w hw
    cases hsel : selectedText tc with
    | none =>
      simp only [entryStepE, hsel, stepWrites] at hw
      exact absurd hw (List.not_mem_nil w)
    | some msg =>
      rcases hso : tc.systemOut with _ | t
      · rcases hse : tc.systemErr with _ | u
        · simp only [entryStepE, hsel, hso, hse, stepWrites,
            List.mem_singleton] at hw
          exact ⟨errorName, Or.inr (Or.inr rfl), by subst hw; rfl⟩
        · rcases u with _ | u
          · simp only [entryStepE, hsel, hso, hse, stepWrites,
              List.mem_singleton] at hw
            exact ⟨stderrName, Or.inr (Or.inl rfl), by subst hw; rfl⟩
          · simp only [entryStepE, hsel, hso, hse, stepWrites, List.mem_cons,
              List.mem_singleton, List.not_mem_nil, or_false] at hw
            rcases hw with hw | hw
            · exact ⟨stderrName, Or.inr (Or.inl rfl), by subst hw; rfl⟩
            · exact ⟨errorName, Or.inr (Or.inr rfl), by subst hw; rfl⟩
      · rcases t with _ | t
        · simp only [entryStepE, hsel, hso, stepWrites, List.mem_singleton] at hw
          exact ⟨stdoutName, Or.inl rfl, by subst hw; rfl⟩
        · rcases hse : tc.systemErr with _ | u
          · simp only [entryStepE, hsel, hso, hse, stepWrites, List.mem_cons,
              List.mem_singleton, List.not_mem_nil, or_false] at hw
            rcases hw with hw | hw
            · exact ⟨stdoutName, Or.inl rfl, by subst hw; rfl⟩
            · exact ⟨errorName, Or.inr (Or.inr rfl), by subst hw; rfl⟩
          · rcases u with _ | u
            · simp only [entryStepE, hsel, hso, hse, stepWrites, List.mem_cons,
                List.mem_singleton, List.not_mem_nil, or_false] at hw
              rcases hw with hw | hw
              · exact ⟨stdoutName, Or.inl rfl, by subst hw; rfl⟩
              · exact ⟨stderrName, Or.inr (Or.inl rfl), by subst hw; rfl⟩
            · simp only [entryStepE, hsel, hso, hse, stepWrites, List.mem_cons,
                List.mem_singleton, List.not_mem_nil, or_false] at hw
              rcases hw with hw | hw | hw
              · exact ⟨stdoutName, Or.inl rfl, by subst hw; rfl⟩
              · exact ⟨stderrName, Or.inr (Or.inl rfl), by subst hw; rfl⟩
              · exact ⟨errorName, Or.inr (Or.inr rfl), by subst hw; rfl⟩

/-- C9 witness: the single file of the aborting testcase A.t (failure
text "m", system-out element present with absent text) is the empty
stdout file created just before the TypeError, and it carries the
0-based index 0 and the stdout suffix. -/
theorem c9_witness :
    ∃ sfx, (sfx = stdoutName ∨ sfx = stderrName ∨ sfx = errorName) ∧
      FileWrite.path ⟨"out/0-A.t-stdout.txt", none⟩ =
        "out/" ++ toString 0 ++ dashStr ++ "A" ++ dotStr ++ "t" ++ dashStr ++ sfx :=
  (c9_amended_indices "out/" 0 ⟨1, "o", "e", none⟩ [] (by decide)).2 crashEnt []
    ⟨"out/0-A.t-stdout.txt", none⟩ (by decide)

/-! The iteration-count claims. -/

/-- An environment passing at 0, failing at 1 (no report produced),
and failing at every later index. -/
def envsFailAt1 : Nat → IterationEnv :=
  fun k => if k = 0 then ⟨0, "", "", none⟩ else ⟨1, "s", "e", none⟩

theorem runAux_executions_of_not_ff (dir : String) (envs : Nat → IterationEnv)
    (n : Nat) : ∀ (i : Nat) (res : Results),
    (runAux dir false envs n i res).executions = n := by
  induction n with
  | zero => intro i res; rfl
  | succ m ih =>
    intro i res
    unfold runAux
    by_cases hx : (envs i).exitCode ≠ 0
    · rw [if_pos hx]
      exact congrArg (· + 1) (ih (i + 1) _)
    · rw [if_neg hx]
      exact congrArg (· + 1) (ih (i + 1) res)

theorem runAux_all_pass (dir : String) (ff : Bool) (envs : Nat → IterationEnv)
    (n : Nat) : ∀ (i : Nat) (res : Results),
    (∀ k, k < n → (envs (i + k)).exitCode = 0) →
    runAux dir ff envs n i res = ⟨res, [], n⟩ := by
  induction n with
  | zero => intro i res _; rfl
  | succ m ih =>
    intro i res hall
    have h0 : (envs i).exitCode = 0 := by
      have := hall 0 (Nat.succ_pos m)
      rwa [Nat.add_zero] at this
    unfold runAux
    rw [if_neg (by simp [h0])]
    have hrest : ∀ k, k < m → (envs (i + 1 + k)).exitCode = 0 := by
      intro k hk
      have heq : i + 1 + k = i + (k + 1) := by omega
      rw [heq]
      exact hall (k + 1) (Nat.succ_lt_succ hk)
    rw [ih (i + 1) res hrest]

theorem runAux_ff_first_fail (dir : String) (envs : Nat → IterationEnv) :
    ∀ (j n i : Nat) (res : Results), j < n →
    (envs (i + j)).exitCode ≠ 0 →
    (∀ k, k < j → (envs (i + k)).exitCode = 0) →
    runAux dir true envs n i res =
      ⟨(failStep dir (i + j) (envs (i + j)) res).1,
       (failStep dir (i + j) (envs (i + j)) res).2, j + 1⟩ := by
  intro j
  induction j with
  | zero =>
    intro n i res hjn hfail _
    obtain ⟨m, rfl⟩ : ∃ m, n = m + 1 :=
      ⟨n - 1, (Nat.succ_pred_eq_of_pos hjn).symm⟩
    rw [Nat.add_zero] at hfail
    unfold runAux
    rw [if_pos hfail, if_pos rfl]
    rw [Nat.add_zero]
  | succ j ih =>
    intro n i res hjn hfail hpass
    obtain ⟨m, rfl⟩ : ∃ m, n = m + 1 :=
      ⟨n - 1, (Nat.succ_pred_eq_of_pos (Nat.lt_of_le_of_lt (Nat.zero_le _) hjn)).symm⟩
    have h0 : (envs i).exitCode = 0 := by
      have := hpass 0 (Nat.succ_pos j)
      rwa [Nat.add_zero] at this
    unfold runAux
    rw [if_neg (by simp [h0])]
    have hshift : i + 1 + j = i + (j + 1) := by omega
    have hrec := ih m (i + 1) res (Nat.lt_of_succ_lt_succ hjn)
      (by rw [hshift]; exact hfail)
      (by
        intro k hk
        have heq : i + 1 + k = i + (k + 1) := by omega
        rw [heq]
        exact hpass (k + 1) (Nat.succ_lt_succ hk))
    rw [hrec, hshift]

/-- C3 counterexample: iterations = 2, fail-fast unset, every
iteration failing, the report holding a testcase whose system-out
element is present with absent text.  Iteration 0's parse executes
f.write(None) (flake.py line 106) and the TypeError aborts the
invocation after only ONE command execution — not the two the claim
requires — the empty per-test stdout file having been created. -/
theorem c3_counterexample :
    runLoopE 2 false envsCrash "out/" =
      RunOut.crash
        [⟨"out/1-full-stdout.txt", some "o"⟩, ⟨"out/1-full-stderr.txt", some "e"⟩,
         ⟨"out/0-A.t-stdout.txt", none⟩] 1
    ∧ (1 : Nat) ≠ 2 := by
  refine ⟨by decide, by decide⟩

/-- C3 (amended): in every run that completes without the TypeError
of the unguarded captured-output writes (flake.py lines 104-109), the
iteration runner executes the command exactly N times when fail-fast
is unset or no iteration fails; when fail-fast is set and the first
failing 0-based index is j, it executes exactly j + 1 times, and the
whole run equals the processing of that one failing iteration (its
full-output files written and its report parsed into the results),
nothing after it.  An aborting run stops early, as the counterexample
shows. -/
theorem c3_execution_count (N : Nat) (ff : Bool) (envs : Nat → IterationEnv)
    (dir : String) (r : RunResult) (hok : runLoopE N ff envs dir = RunOut.ok r) :
    ((ff = false ∨ ∀ i, i < N → (envs i).exitCode = 0) → r.executions = N)
    ∧ ∀ j, ff = true → j < N → (envs j).exitCode ≠ 0 →
        (∀ k, k < j → (envs k).exitCode = 0) →
        r = ⟨(failStep dir j (envs j) []).1, (failStep dir j (envs j) []).2, j + 1⟩ := by
  have hr : runLoop N ff envs dir = r := runLoopE_ok N ff envs dir r hok
  subst hr
  constructor
  · rintro (hff | hall)
    · rw [hff]
      exact runAux_executions_of_not_ff dir envs N 0 []
    · unfold runLoop
      rw [runAux_all_pass dir ff envs N 0 [] (by intro k hk; rw [Nat.zero_add]; exact hall k hk)]
  · intro j hff hjN hfail hpass
    subst hff
    unfold runLoop
    have := runAux_ff_first_fail dir envs j N 0 [] hjN
      (by rw [Nat.zero_add]; exact hfail)
      (by intro k hk; rw [Nat.zero_add]; exact hpass k hk)
    rw [this, Nat.zero_add]

/-- C3 witness: both runs complete (runLoopE returns ok).  Without
fail-fast an all-failing 3-iteration run executes 3 times; with
fail-fast and the first failure at 0-based index 1, the run executes
twice, has written the two full-output files of iteration index 1
(named with the 1-based 2), and parsed its (absent) report into
empty results. -/
theorem c3_witness :
    (runLoop 3 false envsOneCase "o/").executions = 3 ∧
    runLoop 3 true envsFailAt1 "o/" =
      ⟨[], [⟨"o/2-full-stdout.txt", some "s"⟩, ⟨"o/2-full-stderr.txt", some "e"⟩], 2⟩ :=
  ⟨(c3_execution_count 3 false envsOneCase "o/" (runLoop 3 false envsOneCase "o/")
      (by decide)).1 (Or.inl rfl),
   ((c3_execution_count 3 true envsFailAt1 "o/" (runLoop 3 true envsFailAt1 "o/")
      (by decide)).2 1 rfl (by decide) (by decide) (by decide)).trans (by decide)⟩

/-! The structure of the issue body (C4). -/

/-- The nested results flattened to (TestIdentity, record list) pairs
in the order the nested dict iteration visits them. -/
def flattenResults : Results → List ((String × String) × List FailureRecord)
  | [] => []
  | ci :: rest => ci.2.map (fun nf => ((ci.1, nf.1), nf.2)) ++ flattenResults rest

/-- The test identities of the flattened results, in order. -/
def flattenIds (res : Results) : List (String × String) :=
  (flattenResults res).map Prod.fst

/-- Concatenation of a list of strings. -/
def joinStrings : List String → String
  | [] => ""
  | s :: rest => s ++ joinStrings rest

theorem joinStrings_append (l1 l2 : List String) :
    joinStrings (l1 ++ l2) = joinStrings l1 ++ joinStrings l2 := by
  induction l1 with
  | nil => rw [List.nil_append]; exact (String.empty_append _).symm
  | cons s rest ih =>
    show s ++ joinStrings (rest ++ l2) = s ++ joinStrings rest ++ joinStrings l2
    rw [ih, String.append_assoc]

theorem foldl_append_join {α : Type} (g : α → String) (l : List α) :
    ∀ acc : String, l.foldl (fun a x => a ++ g x) acc = acc ++ joinStrings (l.map g) := by
  induction l with
  | nil => intro acc; exact (String.append_empty acc).symm
  | cons x rest ih =>
    intro acc
    rw [List.foldl_cons, ih (acc ++ g x)]
    show acc ++ g x ++ joinStrings (List.map g rest) =
      acc ++ (g x ++ joinStrings (List.map g rest))
    rw [String.append_assoc]

theorem buildBody_flatten (iters : Nat) (sha : String) : ∀ res : Results,
    buildBody res iters sha =
      headerFor sha ++
        joinStrings ((flattenResults res).map (fun e => bodyLine e.1.1 e.1.2 iters e.2)) := by
  suffices haux : ∀ (res : Results) (acc : String),
      res.foldl (fun acc2 ci => ci.2.foldl (fun a nf => a ++ bodyLine ci.1 nf.1 iters nf.2) acc2) acc =
        acc ++ joinStrings ((flattenResults res).map (fun e => bodyLine e.1.1 e.1.2 iters e.2)) by
    intro res
    exact haux res (headerFor sha)
  intro res
  induction res with
  | nil => intro acc; exact (String.append_empty acc).symm
  | cons ci rest ih =>
    intro acc
    rw [List.foldl_cons, foldl_append_join (fun nf => bodyLine ci.1 nf.1 iters nf.2) ci.2, ih]
    rw [show flattenResults (ci :: rest) =
      ci.2.map (fun nf => ((ci.1, nf.1), nf.2)) ++ flattenResults rest from rfl]
    rw [List.map_append, joinStrings_append, String.append_assoc, List.map_map]
    rfl

/-! Well-formedness: the dict keys at both levels are distinct, so the
flattened identity list has no duplicates (one body line per
identity). -/

/-- The class names of the outer dict, in order. -/
def classKeys (res : Results) : List String := res.map Prod.fst

/-- The test names of an inner dict, in order. -/
def caseKeys (inner : List (String × List FailureRecord)) : List String :=
  inner.map Prod.fst

/-- Both dict levels have distinct keys, as Python dicts always do. -/
def ResultsWF (res : Results) : Prop :=
  (classKeys res).Nodup ∧ ∀ ci ∈ res, (caseKeys ci.2).Nodup

theorem mem_caseKeys_insertCase (n : String) (r : FailureRecord) (m : String) :
    ∀ inner, m ∈ caseKeys (insertCase inner n r) ↔ m ∈ caseKeys inner ∨ m = n := by
  intro inner
  induction inner with
  | nil => simp [insertCase, caseKeys]
  | cons p rest ih =>
    by_cases hp : p.1 = n
    · unfold insertCase
      rw [if_pos hp]
      subst hp
      simp [caseKeys]
      tauto
    · unfold insertCase
      rw [if_neg hp]
      simp only [caseKeys, List.map_cons, List.mem_cons] at ih ⊢
      rw [ih]
      tauto

theorem nodup_caseKeys_insertCase (n : String) (r : FailureRecord) :
    ∀ inner, (caseKeys inner).Nodup → (caseKeys (insertCase inner n r)).Nodup := by
  intro inner
  induction inner with
  | nil => intro _; simp [insertCase, caseKeys]
  | cons p rest ih =>
    intro hnd
    simp only [caseKeys, List.map_cons, List.nodup_cons] at hnd
    by_cases hp : p.1 = n
    · unfold insertCase
      rw [if_pos hp]
      simp only [caseKeys, List.map_cons, List.nodup_cons]
      exact hnd
    · unfold insertCase
      rw [if_neg hp]
      simp only [caseKeys, List.map_cons, List.nodup_cons]
      refine ⟨?_, ih hnd.2⟩
      intro hmem
      rcases (mem_caseKeys_insertCase n r p.1 rest).mp hmem with hin | heq
      · exact hnd.1 hin
      · exact hp heq

theorem mem_classKeys_insertRecord (c n : String) (r : FailureRecord) (m : String) :
    ∀ res, m ∈ classKeys (insertRecord res c n r) ↔ m ∈ classKeys res ∨ m = c := by
  intro res
  induction res with
  | nil => simp [insertRecord, classKeys]
  | cons p rest ih =>
    by_cases hp : p.1 = c
    · unfold insertRecord
      rw [if_pos hp]
      subst hp
      simp [classKeys]
      tauto
    · unfold insertRecord
      rw [if_neg hp]
      simp only [classKeys, List.map_cons, List.mem_cons] at ih ⊢
      rw [ih]
      tauto

theorem wf_insertRecord (c n : String) (r : FailureRecord) :
    ∀ res, ResultsWF res → ResultsWF (insertRecord res c n r) := by
  intro res
  induction res with
  | nil =>
    intro _
    refine ⟨by simp [insertRecord, classKeys], ?_⟩
    intro ci hci
    simp only [insertRecord, List.mem_singleton] at hci
    subst hci
    simp [caseKeys]
  | cons p rest ih =>
    intro hwf
    obtain ⟨hcls, hinner⟩ := hwf
    simp only [classKeys, List.map_cons, List.nodup_cons] at hcls
    by_cases hp : p.1 = c
    · unfold insertRecord
      rw [if_pos hp]
      refine ⟨?_, ?_⟩
      · simp only [classKeys, List.map_cons, List.nodup_cons]
        exact hcls
      · intro ci hci
        rcases List.mem_cons.mp hci with hhd | htl
        · subst hhd
          exact nodup_caseKeys_insertCase n r p.2 (hinner p (List.mem_cons_self p rest))
        · exact hinner ci (List.mem_cons_of_mem p htl)
    · unfold insertRecord
      rw [if_neg hp]
      have hwfrest : ResultsWF rest :=
        ⟨hcls.2, fun ci hci => hinner ci (List.mem_cons_of_mem p hci)⟩
      obtain ⟨hcls2, hinner2⟩ := ih hwfrest
      refine ⟨?_, ?_⟩
      · simp only [classKeys, List.map_cons, List.nodup_cons]
        refine ⟨?_, hcls2⟩
        intro hmem
        rcases (mem_classKeys_insertRecord c n r p.1 rest).mp hmem with hin | heq
        · exact hcls.1 hin
        · exact hp heq
      · intro ci hci
        rcases List.mem_cons.mp hci with hhd | htl
        · subst hhd
          exact hinner _ (List.mem_cons_self _ _)
        · exact hinner2 ci htl

theorem wf_parseEntries (i : Nat) :
    ∀ (es : List TestCaseEntry) (res : Results), ResultsWF res →
      ResultsWF (parseEntries i res es) := by
  intro es
  induction es with
  | nil => intro res h; exact h
  | cons tc rest ih =>
    intro res h
    unfold parseEntries
    cases hsel : selectedText tc with
    | none => exact ih res h
    | some m => exact ih _ (wf_insertRecord tc.classname tc.name ⟨i, m⟩ res h)

theorem wf_parseFiles (i : Nat) (dir : String) :
    ∀ (files : List (String × List TestCaseEntry)) (res : Results), ResultsWF res →
      ResultsWF (parseFiles i dir res files).1 := by
  intro files
  induction files with
  | nil => intro res h; exact h
  | cons f rest ih =>
    intro res h
    exact ih _ (wf_parseEntries i f.2 res h)

theorem wf_parse_test_results (i : Nat) (dir : String) (res : Results)
    (d : Option (List (String × List TestCaseEntry))) (h : ResultsWF res) :
    ResultsWF (parse_test_results i dir res d).1 := by
  cases d with
  | none => exact h
  | some files => exact wf_parseFiles i dir _ res h

theorem wf_runAux (dir : String) (ff : Bool) (envs : Nat → IterationEnv) :
    ∀ (n i : Nat) (res : Results), ResultsWF res →
      ResultsWF (runAux dir ff envs n i res).results := by
  intro n
  induction n with
  | zero => intro i res h; exact h
  | succ m ih =>
    intro i res h
    unfold runAux
    by_cases hx : (envs i).exitCode ≠ 0
    · rw [if_pos hx]
      by_cases hff : ff
      · rw [if_pos hff]
        exact wf_parse_test_results i dir res (envs i).reportDir h
      · rw [if_neg hff]
        exact ih (i + 1) _ (wf_parse_test_results i dir res (envs i).reportDir h)
    · rw [if_neg hx]
      exact ih (i + 1) res h

theorem mem_flattenIds_classKeys :
    ∀ (res : Results) (x : String × String), x ∈ flattenIds res → x.1 ∈ classKeys res := by
  intro res
  induction res with
  | nil => intro x hx; simp [flattenIds, flattenResults] at hx
  | cons ci rest ih =>
    intro x hx
    simp only [flattenIds, flattenResults, List.map_append, List.mem_append,
      List.map_map] at hx
    rcases hx with hx | hx
    · simp only [List.mem_map] at hx
      obtain ⟨nf, _, hnf⟩ := hx
      simp only [classKeys, List.map_cons, List.mem_cons]
      left
      rw [← hnf]
      rfl
    · simp only [classKeys, List.map_cons, List.mem_cons]
      right
      exact ih x hx

theorem nodup_flattenIds : ∀ res : Results, ResultsWF res → (flattenIds res).Nodup := by
  intro res
  induction res with
  | nil => intro _; simp [flattenIds, flattenResults]
  | cons ci rest ih =>
    intro hwf
    obtain ⟨hcls, hinner⟩ := hwf
    simp only [classKeys, List.map_cons, List.nodup_cons] at hcls
    simp only [flattenIds, flattenResults, List.map_append, List.map_map]
    rw [List.nodup_append]
    refine ⟨?_, ?_, ?_⟩
    · have hkeys : (caseKeys ci.2).Nodup := hinner ci (List.mem_cons_self ci rest)
      have : (List.map ((fun nf => ((ci.1, nf.1), nf.2)) · |>.1) ci.2).Nodup := by
        show (List.map (fun nf => (ci.1, nf.1)) ci.2).Nodup
        have hmm : List.map (fun nf => (ci.1, nf.1)) ci.2 =
            List.map (fun k => (ci.1, k)) (caseKeys ci.2) := by
          simp [caseKeys, List.map_map]
        rw [hmm]
        exact hkeys.map (fun a b hab => (Prod.mk.injEq _ _ _ _).mp hab |>.2)
      exact this
    · exact ih ⟨hcls.2, fun cj hcj => hinner cj (List.mem_cons_of_mem ci hcj)⟩
    · intro x hx1 hx2
      simp only [List.mem_map] at hx1
      obtain ⟨nf, _, hnf⟩ := hx1
      have hx1cls : x.1 = ci.1 := by rw [← hnf]; rfl
      have := mem_flattenIds_classKeys rest x (by
        simpa [flattenIds] using hx2)
      rw [hx1cls] at this
      exact hcls.1 this

/-- C4: for any run, the issue body is exactly the commit header
followed by the concatenation, in dict order, of one summary line per
test identity of the aggregated results — with k the length of that
identity's record list and u the number of distinct failure-message
texts (bodyLine carries failures.length and uniqueFailureCount) —
identities never repeating; and the spec's example [timeout, timeout,
assert X] indeed counts 2 unique failures. -/
theorem c4_body_lines (N : Nat) (ff : Bool) (envs : Nat → IterationEnv)
    (dir sha : String) :
    buildBody (runLoop N ff envs dir).results N sha =
      headerFor sha ++
        joinStrings ((flattenResults (runLoop N ff envs dir).results).map
          (fun e => bodyLine e.1.1 e.1.2 N e.2))
    ∧ (flattenIds (runLoop N ff envs dir).results).Nodup
    ∧ uniqueFailureCount [⟨0, "timeout"⟩, ⟨1, "timeout"⟩, ⟨2, "assert X"⟩] = 2 := by
  refine ⟨buildBody_flatten N sha _, ?_, by decide⟩
  exact nodup_flattenIds _ (wf_runAux dir ff envs N 0 [] ⟨by simp [classKeys], by simp⟩)

/-! Aggregation invariants (C5): what the loop puts under each
identity, in which order. -/

theorem lookupCase_insertCase_self (n : String) (r : FailureRecord) :
    ∀ inner, lookupCase (insertCase inner n r) n =
      some ((lookupCase inner n).getD [] ++ [r]) := by
  intro inner
  induction inner with
  | nil => simp [insertCase, lookupCase]
  | cons p rest ih =>
    by_cases hp : p.1 = n
    · simp [insertCase, lookupCase, hp]
    · simp only [insertCase, lookupCase, if_neg hp]
      exact ih

theorem lookupCase_insertCase_ne (n : String) (r : FailureRecord) (m : String)
    (hmn : m ≠ n) : ∀ inner, lookupCase (insertCase inner n r) m = lookupCase inner m := by
  intro inner
  induction inner with
  | nil => simp [insertCase, lookupCase, Ne.symm hmn]
  | cons p rest ih =>
    by_cases hp : p.1 = n
    · simp [insertCase, lookupCase, hp, Ne.symm hmn]
    · by_cases hpm : p.1 = m
      · simp [insertCase, lookupCase, hp, hpm, hmn]
      · simp only [insertCase, lookupCase, if_neg hp, if_neg hpm]
        exact ih

theorem lookupId_insertRecord_self (c n : String) (r : FailureRecord) :
    ∀ res, lookupId (insertRecord res c n r) c n =
      some ((lookupId res c n).getD [] ++ [r]) := by
  intro res
  induction res with
  | nil =>
    show lookupId [(c, [(n, [r])])] c n = some [r]
    simp [lookupId, lookupCase]
  | cons p rest ih =>
    by_cases hp : p.1 = c
    · simp only [insertRecord, lookupId, if_pos hp]
      exact lookupCase_insertCase_self n r p.2
    · simp only [insertRecord, lookupId, if_neg hp]
      exact ih

theorem lookupId_insertRecord_ne (c n : String) (r : FailureRecord) (c' n' : String)
    (hne : ¬(c' = c ∧ n' = n)) :
    ∀ res, lookupId (insertRecord res c n r) c' n' = lookupId res c' n' := by
  intro res
  induction res with
  | nil =>
    show lookupId [(c, [(n, [r])])] c' n' = none
    by_cases hc : c = c'
    · subst hc
      have hn : n' ≠ n := fun h => hne ⟨rfl, h⟩
      simp [lookupId, lookupCase, hn, Ne.symm hn]
    · simp [lookupId, hc]
  | cons p rest ih =>
    by_cases hp : p.1 = c
    · by_cases hpc : p.1 = c'
      · simp only [insertRecord, lookupId, if_pos hp, if_pos hpc]
        have hcc : c' = c := by rw [← hpc, hp]
        have hn : n' ≠ n := fun h => hne ⟨hcc, h⟩
        exact lookupCase_insertCase_ne n r n' hn p.2
      · simp only [insertRecord, lookupId, if_pos hp, if_neg hpc]
    · by_cases hpc : p.1 = c'
      · simp only [insertRecord, lookupId, if_neg hp, if_pos hpc]
      · simp only [insertRecord, lookupId, if_neg hp, if_neg hpc]
        exact ih

/-- The records one report's testcase list contributes to the given
identity, in entry order: one record of iteration index i per entry
of that identity whose chosen failure text is present. -/
def entryRecsFor (i : Nat) (c n : String) : List TestCaseEntry → List FailureRecord
  | [] => []
  | tc :: rest =>
    (if tc.classname = c ∧ tc.name = n then
       (match selectedText tc with
        | some m => [FailureRecord.mk i m]
        | none => [])
     else []) ++ entryRecsFor i c n rest

/-- The records a directory's (filtered) report files contribute. -/
def filesRecsFor (i : Nat) (c n : String) : List (String × List TestCaseEntry) → List FailureRecord
  | [] => []
  | f :: rest => entryRecsFor i c n f.2 ++ filesRecsFor i c n rest

/-- The records one iteration's report directory contributes. -/
def dirRecsFor (i : Nat) (c n : String) :
    Option (List (String × List TestCaseEntry)) → List FailureRecord
  | none => []
  | some files => filesRecsFor i c n (files.filter (fun f => isReportName f.1))

theorem lookupId_parseEntries (i : Nat) (c n : String) :
    ∀ (es : List TestCaseEntry) (res : Results),
      lookupId (parseEntries i res es) c n =
        if entryRecsFor i c n es = [] then lookupId res c n
        else some ((lookupId res c n).getD [] ++ entryRecsFor i c n es) := by
  intro es
  induction es with
  | nil => intro res; simp [parseEntries, entryRecsFor]
  | cons tc rest ih =>
    intro res
    show lookupId (parseEntries i _ rest) c n = _
    have hcons : entryRecsFor i c n (tc :: rest) =
        (if tc.classname = c ∧ tc.name = n then
           (match selectedText tc with
            | some m => [FailureRecord.mk i m]
            | none => [])
         else []) ++ entryRecsFor i c n rest := rfl
    cases hsel : selectedText tc with
    | none =>
      have hrw : entryRecsFor i c n (tc :: rest) = entryRecsFor i c n rest := by
        rw [hcons, hsel]
        simp
      rw [hrw]
      exact ih res
    | some m =>
      by_cases hm : tc.classname = c ∧ tc.name = n
      · have hrw : entryRecsFor i c n (tc :: rest) =
            FailureRecord.mk i m :: entryRecsFor i c n rest := by
          rw [hcons, hsel, if_pos hm]
          simp
        rw [hrw, ih (insertRecord res tc.classname tc.name ⟨i, m⟩)]
        obtain ⟨hmc, hmn⟩ := hm
        rw [hmc, hmn, lookupId_insertRecord_self c n ⟨i, m⟩ res]
        by_cases hrest : entryRecsFor i c n rest = []
        · rw [if_pos hrest, if_neg (List.cons_ne_nil _ _), hrest]
        · rw [if_neg hrest, if_neg (List.cons_ne_nil _ _)]
          simp [List.append_assoc]
      · have hrw : entryRecsFor i c n (tc :: rest) = entryRecsFor i c n rest := by
          rw [hcons, hsel, if_neg hm]
          simp
        rw [hrw, ih (insertRecord res tc.classname tc.name ⟨i, m⟩)]
        have hne : ¬(c = tc.classname ∧ n = tc.name) := by
          intro hcn
          exact hm ⟨hcn.1.symm, hcn.2.symm⟩
        rw [lookupId_insertRecord_ne tc.classname tc.name ⟨i, m⟩ c n hne res]

theorem lookupId_parseFiles (i : Nat) (dir : String) (c n : String) :
    ∀ (files : List (String × List TestCaseEntry)) (res : Results),
      lookupId (parseFiles i dir res files).1 c n =
        if filesRecsFor i c n files = [] then lookupId res c n
        else some ((lookupId res c n).getD [] ++ filesRecsFor i c n files) := by
  intro files
  induction files with
  | nil => intro res; simp [parseFiles, filesRecsFor]
  | cons f rest ih =>
    intro res
    show lookupId (parseFiles i dir (parseEntries i res f.2) rest).1 c n = _
    rw [ih (parseEntries i res f.2), lookupId_parseEntries i c n f.2 res]
    have hcons : filesRecsFor i c n (f :: rest) =
        entryRecsFor i c n f.2 ++ filesRecsFor i c n rest := rfl
    rw [hcons]
    by_cases h1 : entryRecsFor i c n f.2 = []
    · rw [if_pos h1, h1, List.nil_append]
    · rw [if_neg h1]
      by_cases h2 : filesRecsFor i c n rest = []
      · rw [if_pos h2, h2, List.append_nil, if_neg h1]
      · rw [if_neg h2, if_neg (by
          intro hboth
          exact h1 (List.append_eq_nil.mp hboth).1)]
        simp [List.append_assoc]

theorem lookupId_parse_test_results (i : Nat) (dir : String) (c n : String)
    (res : Results) (d : Option (List (String × List TestCaseEntry))) :
    lookupId (parse_test_results i dir res d).1 c n =
      if dirRecsFor i c n d = [] then lookupId res c n
      else some ((lookupId res c n).getD [] ++ dirRecsFor i c n d) := by
  cases d with
  | none => simp [parse_test_results, dirRecsFor]
  | some files => exact lookupId_parseFiles i dir c n (files.filter (fun f => isReportName f.1)) res

/-- The number of iterations the loop actually runs, determined by
the exit codes and the fail-fast flag alone. -/
def execCount (ff : Bool) (envs : Nat → IterationEnv) : Nat → Nat → Nat
  | 0, _ => 0
  | Nat.succ m, i =>
    if (envs i).exitCode ≠ 0 ∧ ff = true then 1 else execCount ff envs m (i + 1) + 1

theorem executions_runAux (dir : String) (ff : Bool) (envs : Nat → IterationEnv) :
    ∀ (n i : Nat) (res : Results),
      (runAux dir ff envs n i res).executions = execCount ff envs n i := by
  intro n
  induction n with
  | zero => intro i res; rfl
  | succ m ih =>
    intro i res
    simp only [runAux, execCount]
    by_cases hx : (envs i).exitCode ≠ 0
    · rw [if_pos hx]
      by_cases hff : ff = true
      · rw [if_pos hff, if_pos ⟨hx, hff⟩]
      · rw [if_neg hff, if_neg (fun h => hff h.2)]
        exact congrArg (· + 1) (ih (i + 1) _)
    · rw [if_neg hx, if_neg (fun h => hx h.1)]
      exact congrArg (· + 1) (ih (i + 1) res)

/-- The records the loop appends under one identity, mirroring the
loop's control flow: failing iterations contribute their directory's
records, fail-fast stops after the first failure. -/
def collectRecs (ff : Bool) (envs : Nat → IterationEnv) (c n : String) :
    Nat → Nat → List FailureRecord
  | 0, _ => []
  | Nat.succ m, i =>
    if (envs i).exitCode ≠ 0 then
      dirRecsFor i c n (envs i).reportDir ++
        (if ff then [] else collectRecs ff envs c n m (i + 1))
    else collectRecs ff envs c n m (i + 1)

theorem lookupId_runAux (dir : String) (ff : Bool) (envs : Nat → IterationEnv)
    (c n : String) : ∀ (m i : Nat) (res : Results),
    lookupId (runAux dir ff envs m i res).results c n =
      if collectRecs ff envs c n m i = [] then lookupId res c n
      else some ((lookupId res c n).getD [] ++ collectRecs ff envs c n m i) := by
  intro m
  induction m with
  | zero => intro i res; simp [runAux, collectRecs]
  | succ m ih =>
    intro i res
    simp only [runAux, collectRecs]
    by_cases hx : (envs i).exitCode ≠ 0
    · rw [if_pos hx, if_pos hx]
      by_cases hff : ff = true
      · rw [if_pos hff, if_pos hff, List.append_nil]
        show lookupId (parse_test_results i dir res (envs i).reportDir).1 c n = _
        exact lookupId_parse_test_results i dir c n res (envs i).reportDir
      · rw [if_neg hff, if_neg hff]
        show lookupId (runAux dir ff envs m (i + 1)
          (parse_test_results i dir res (envs i).reportDir).1).results c n = _
        rw [ih (i + 1) _, lookupId_parse_test_results i dir c n res (envs i).reportDir]
        by_cases h1 : dirRecsFor i c n (envs i).reportDir = [] <;>
          by_cases h2 : collectRecs ff envs c n m (i + 1) = [] <;>
          simp [h1, h2, List.append_assoc]
    · rw [if_neg hx, if_neg hx]
      exact ih (i + 1) res

/-- Does this testcase entry contribute a record for the identity? -/
def entryFor (c n : String) (tc : TestCaseEntry) : Bool :=
  tc.classname = c && tc.name = n && (selectedText tc).isSome

/-- Does this iteration's report directory contribute a record for
the identity? -/
def dirContributes (c n : String) :
    Option (List (String × List TestCaseEntry)) → Bool
  | none => false
  | some files =>
    (files.filter (fun f => isReportName f.1)).any (fun f => f.2.any (entryFor c n))

theorem entryRecsFor_eq_nil_iff (i : Nat) (c n : String) :
    ∀ es : List TestCaseEntry,
      entryRecsFor i c n es = [] ↔ es.any (entryFor c n) = false := by
  intro es
  induction es with
  | nil => simp [entryRecsFor]
  | cons tc rest ih =>
    have hcons : entryRecsFor i c n (tc :: rest) =
        (if tc.classname = c ∧ tc.name = n then
           (match selectedText tc with
            | some m => [FailureRecord.mk i m]
            | none => [])
         else []) ++ entryRecsFor i c n rest := rfl
    rw [hcons]
    by_cases hm : tc.classname = c ∧ tc.name = n
    · cases hsel : selectedText tc with
      | none =>
        simp [if_pos hm, hsel, entryFor, ih, hm.1, hm.2, List.any_cons]
      | some m =>
        simp [if_pos hm, hsel, entryFor, hm.1, hm.2, List.any_cons]
    · have hef : entryFor c n tc = false := by
        unfold entryFor
        rcases not_and_or.mp hm with h | h <;> simp [h]
      simp [if_neg hm, hef, ih, List.any_cons]

theorem filesRecsFor_eq_nil_iff (i : Nat) (c n : String) :
    ∀ files : List (String × List TestCaseEntry),
      filesRecsFor i c n files = [] ↔
        files.any (fun f => f.2.any (entryFor c n)) = false := by
  intro files
  induction files with
  | nil => simp [filesRecsFor]
  | cons f rest ih =>
    have hcons : filesRecsFor i c n (f :: rest) =
        entryRecsFor i c n f.2 ++ filesRecsFor i c n rest := rfl
    rw [hcons]
    simp [List.append_eq_nil, entryRecsFor_eq_nil_iff, ih, List.any_cons]

theorem dirRecsFor_eq_nil_iff (i : Nat) (c n : String)
    (d : Option (List (String × List TestCaseEntry))) :
    dirRecsFor i c n d = [] ↔ dirContributes c n d = false := by
  cases d with
  | none => simp [dirRecsFor, dirContributes]
  | some files =>
    show filesRecsFor i c n _ = [] ↔ _
    rw [filesRecsFor_eq_nil_iff]
    rfl

theorem collectRecs_eq_nil_iff (ff : Bool) (envs : Nat → IterationEnv) (c n : String) :
    ∀ (m i : Nat),
      collectRecs ff envs c n m i = [] ↔
        ∀ k, k < execCount ff envs m i →
          ¬((envs (i + k)).exitCode ≠ 0 ∧
            dirContributes c n (envs (i + k)).reportDir = true) := by
  intro m
  induction m with
  | zero => intro i; simp [collectRecs, execCount]
  | succ m ih =>
    intro i
    simp only [collectRecs, execCount]
    by_cases hx : (envs i).exitCode ≠ 0
    · by_cases hff : ff = true
      · rw [if_pos hx, if_pos hff, if_pos ⟨hx, hff⟩, List.append_nil]
        constructor
        · intro hnil k hk
          have hk0 : k = 0 := by omega
          subst hk0
          rw [Nat.add_zero]
          rintro ⟨_, hcon⟩
          rw [(dirRecsFor_eq_nil_iff i c n _).mp hnil] at hcon
          exact Bool.false_ne_true hcon
        · intro hall
          have h0 := hall 0 (by omega)
          rw [Nat.add_zero] at h0
          refine (dirRecsFor_eq_nil_iff i c n _).mpr ?_
          by_cases hcon : dirContributes c n (envs i).reportDir = true
          · exact absurd ⟨hx, hcon⟩ h0
          · exact Bool.not_eq_true _ |>.mp hcon
      · rw [if_pos hx, if_neg hff, if_neg (fun h => hff h.2), List.append_eq_nil]
        rw [ih (i + 1)]
        constructor
        · rintro ⟨hd, hrest⟩ k hk
          cases k with
          | zero =>
            rw [Nat.add_zero]
            rintro ⟨_, hcon⟩
            rw [(dirRecsFor_eq_nil_iff i c n _).mp hd] at hcon
            exact Bool.false_ne_true hcon
          | succ k =>
            have heq : i + (k + 1) = i + 1 + k := by omega
            rw [heq]
            exact hrest k (by omega)
        · intro hall
          refine ⟨?_, ?_⟩
          · have h0 := hall 0 (by omega)
            rw [Nat.add_zero] at h0
            refine (dirRecsFor_eq_nil_iff i c n _).mpr ?_
            by_cases hcon : dirContributes c n (envs i).reportDir = true
            · exact absurd ⟨hx, hcon⟩ h0
            · exact Bool.not_eq_true _ |>.mp hcon
          · intro k hk
            have heq : i + 1 + k = i + (k + 1) := by omega
            rw [heq]
            exact hall (k + 1) (by omega)
    · rw [if_neg hx, if_neg (fun h => hx h.1)]
      rw [ih (i + 1)]
      constructor
      · intro hrest k hk
        cases k with
        | zero =>
          rw [Nat.add_zero]
          rintro ⟨hf, _⟩
          exact hx hf
        | succ k =>
          have heq : i + (k + 1) = i + 1 + k := by omega
          rw [heq]
          exact hrest k (by omega)
      · intro hall k hk
        have heq : i + 1 + k = i + (k + 1) := by omega
        rw [heq]
        exact hall (k + 1) (by omega)

/-- Every record of the aggregated structure satisfies P. -/
def resRecsP (res : Results) (P : FailureRecord → Prop) : Prop :=
  ∀ ci ∈ res, ∀ nf ∈ ci.2, ∀ x ∈ nf.2, P x

/-- Every record list of the aggregated structure is sorted by
non-decreasing iteration index. -/
def resSorted (res : Results) : Prop :=
  ∀ ci ∈ res, ∀ nf ∈ ci.2, List.Sorted (fun a b => a.iteration ≤ b.iteration) nf.2

/-- No record list of the aggregated structure is empty. -/
def resNonnil (res : Results) : Prop :=
  ∀ ci ∈ res, ∀ nf ∈ ci.2, nf.2 ≠ []

theorem resRecsP_mono (res : Results) (b b' : Nat) (hbb : b ≤ b')
    (h : resRecsP res (fun x => x.iteration < b)) :
    resRecsP res (fun x => x.iteration < b') :=
  fun ci hci nf hnf x hx => Nat.lt_of_lt_of_le (h ci hci nf hnf x hx) hbb

theorem insertCase_inv (n : String) (r : FailureRecord) :
    ∀ inner,
      (∀ nf ∈ inner, ∀ x ∈ nf.2, x.iteration < r.iteration + 1) →
      (∀ nf ∈ inner, List.Sorted (fun a b => a.iteration ≤ b.iteration) nf.2) →
      (∀ nf ∈ inner, nf.2 ≠ []) →
      ∀ nf ∈ insertCase inner n r,
        (∀ x ∈ nf.2, x.iteration < r.iteration + 1) ∧
        List.Sorted (fun a b => a.iteration ≤ b.iteration) nf.2 ∧ nf.2 ≠ [] := by
  intro inner
  induction inner with
  | nil =>
    intro _ _ _ nf hnf
    simp only [insertCase, List.mem_singleton] at hnf
    subst hnf
    refine ⟨?_, ?_, ?_⟩
    · intro x hx
      simp only [List.mem_singleton] at hx
      subst hx
      omega
    · simp
    · simp
  | cons p rest ih =>
    intro hb hs hn nf hnf
    by_cases hp : p.1 = n
    · rw [show insertCase (p :: rest) n r =
        (p.1, p.2 ++ [r]) :: rest from by simp [insertCase, hp]] at hnf
      rcases List.mem_cons.mp hnf with hhd | htl
      · subst hhd
        have hbp := hb p (List.mem_cons_self p rest)
        have hsp := hs p (List.mem_cons_self p rest)
        refine ⟨?_, ?_, ?_⟩
        · intro x hx
          rcases List.mem_append.mp hx with hx | hx
          · exact hbp x hx
          · simp only [List.mem_singleton] at hx
            subst hx
            omega
        · show List.Pairwise (fun a b => a.iteration ≤ b.iteration) (p.2 ++ [r])
          rw [List.pairwise_append]
          refine ⟨hsp, by simp, ?_⟩
          intro a ha b hbm
          simp only [List.mem_singleton] at hbm
          subst hbm
          exact Nat.le_of_lt_succ (hbp a ha)
        · simp
      · exact ⟨hb nf (List.mem_cons_of_mem p htl), hs nf (List.mem_cons_of_mem p htl),
          hn nf (List.mem_cons_of_mem p htl)⟩
    · rw [show insertCase (p :: rest) n r = p :: insertCase rest n r from by
        simp [insertCase, hp]] at hnf
      rcases List.mem_cons.mp hnf with hhd | htl
      · subst hhd
        exact ⟨hb _ (List.mem_cons_self _ _), hs _ (List.mem_cons_self _ _),
          hn _ (List.mem_cons_self _ _)⟩
      · exact ih (fun nf h => hb nf (List.mem_cons_of_mem p h))
          (fun nf h => hs nf (List.mem_cons_of_mem p h))
          (fun nf h => hn nf (List.mem_cons_of_mem p h)) nf htl

theorem insertRecord_inv (c n : String) (r : FailureRecord) :
    ∀ res, resRecsP res (fun x => x.iteration < r.iteration + 1) → resSorted res →
      resNonnil res →
      resRecsP (insertRecord res c n r) (fun x => x.iteration < r.iteration + 1) ∧
      resSorted (insertRecord res c n r) ∧ resNonnil (insertRecord res c n r) := by
  intro res
  induction res with
  | nil =>
    intro _ _ _
    refine ⟨?_, ?_, ?_⟩ <;>
      · intro ci hci nf hnf
        simp only [insertRecord, List.mem_singleton] at hci
        subst hci
        simp only [List.mem_singleton] at hnf
        subst hnf
        simp
  | cons p rest ih =>
    intro hb hs hn
    by_cases hp : p.1 = c
    · rw [show insertRecord (p :: rest) c n r =
        (p.1, insertCase p.2 n r) :: rest from by simp [insertRecord, hp]]
      have hinner := insertCase_inv n r p.2
        (fun nf h x hx => hb p (List.mem_cons_self p rest) nf h x hx)
        (fun nf h => hs p (List.mem_cons_self p rest) nf h)
        (fun nf h => hn p (List.mem_cons_self p rest) nf h)
      refine ⟨?_, ?_, ?_⟩ <;> intro ci hci nf hnf <;>
        rcases List.mem_cons.mp hci with hhd | htl
      · subst hhd
        exact (hinner nf hnf).1
      · exact hb ci (List.mem_cons_of_mem p htl) nf hnf
      · subst hhd
        exact (hinner nf hnf).2.1
      · exact hs ci (List.mem_cons_of_mem p htl) nf hnf
      · subst hhd
        exact (hinner nf hnf).2.2
      · exact hn ci (List.mem_cons_of_mem p htl) nf hnf
    · rw [show insertRecord (p :: rest) c n r = p :: insertRecord rest c n r from by
        simp [insertRecord, hp]]
      have hrest := ih (fun ci h => hb ci (List.mem_cons_of_mem p h))
        (fun ci h => hs ci (List.mem_cons_of_mem p h))
        (fun ci h => hn ci (List.mem_cons_of_mem p h))
      refine ⟨?_, ?_, ?_⟩ <;> intro ci hci nf hnf <;>
        rcases List.mem_cons.mp hci with hhd | htl
      · subst hhd
        exact hb _ (List.mem_cons_self _ _) nf hnf
      · exact hrest.1 ci htl nf hnf
      · subst hhd
        exact hs _ (List.mem_cons_self _ _) nf hnf
      · exact hrest.2.1 ci htl nf hnf
      · subst hhd
        exact hn _ (List.mem_cons_self _ _) nf hnf
      · exact hrest.2.2 ci htl nf hnf

theorem parseEntries_inv (i : Nat) :
    ∀ (es : List TestCaseEntry) (res : Results),
      resRecsP res (fun x => x.iteration < i + 1) → resSorted res → resNonnil res →
      resRecsP (parseEntries i res es) (fun x => x.iteration < i + 1) ∧
      resSorted (parseEntries i res es) ∧ resNonnil (parseEntries i res es) := by
  intro es
  induction es with
  | nil => intro res hb hs hn; exact ⟨hb, hs, hn⟩
  | cons tc rest ih =>
    intro res hb hs hn
    have hstep : parseEntries i res (tc :: rest) =
        parseEntries i
          (match selectedText tc with
           | none => res
           | some m => insertRecord res tc.classname tc.name ⟨i, m⟩) rest := rfl
    rw [hstep]
    cases hsel : selectedText tc with
    | none => exact ih res hb hs hn
    | some m =>
      have h := insertRecord_inv tc.classname tc.name ⟨i, m⟩ res hb hs hn
      exact ih _ h.1 h.2.1 h.2.2

theorem parseFiles_inv (i : Nat) (dir : String) :
    ∀ (files : List (String × List TestCaseEntry)) (res : Results),
      resRecsP res (fun x => x.iteration < i + 1) → resSorted res → resNonnil res →
      resRecsP (parseFiles i dir res files).1 (fun x => x.iteration < i + 1) ∧
      resSorted (parseFiles i dir res files).1 ∧ resNonnil (parseFiles i dir res files).1 := by
  intro files
  induction files with
  | nil => intro res hb hs hn; exact ⟨hb, hs, hn⟩
  | cons f rest ih =>
    intro res hb hs hn
    have h := parseEntries_inv i f.2 res hb hs hn
    exact ih _ h.1 h.2.1 h.2.2

theorem parse_test_results_inv (i : Nat) (dir : String) (res : Results)
    (d : Option (List (String × List TestCaseEntry)))
    (hb : resRecsP res (fun x => x.iteration < i + 1)) (hs : resSorted res)
    (hn : resNonnil res) :
    resRecsP (parse_test_results i dir res d).1 (fun x => x.iteration < i + 1) ∧
    resSorted (parse_test_results i dir res d).1 ∧
    resNonnil (parse_test_results i dir res d).1 := by
  cases d with
  | none => exact ⟨hb, hs, hn⟩
  | some files => exact parseFiles_inv i dir _ res hb hs hn

theorem runAux_inv (dir : String) (ff : Bool) (envs : Nat → IterationEnv) :
    ∀ (n i : Nat) (res : Results),
      resRecsP res (fun x => x.iteration < i) → resSorted res → resNonnil res →
      resRecsP (runAux dir ff envs n i res).results (fun x => x.iteration < i + n) ∧
      resSorted (runAux dir ff envs n i res).results ∧
      resNonnil (runAux dir ff envs n i res).results := by
  intro n
  induction n with
  | zero =>
    intro i res hb hs hn
    exact ⟨resRecsP_mono res i (i + 0) (by omega) hb, hs, hn⟩
  | succ m ih =>
    intro i res hb hs hn
    have hb1 : resRecsP res (fun x => x.iteration < i + 1) :=
      resRecsP_mono res i (i + 1) (by omega) hb
    unfold runAux
    by_cases hx : (envs i).exitCode ≠ 0
    · rw [if_pos hx]
      have hparse := parse_test_results_inv i dir res (envs i).reportDir hb1 hs hn
      by_cases hff : ff
      · rw [if_pos hff]
        exact ⟨resRecsP_mono _ (i + 1) (i + (m + 1)) (by omega) hparse.1,
          hparse.2.1, hparse.2.2⟩
      · rw [if_neg hff]
        have hrest := ih (i + 1) _ hparse.1 hparse.2.1 hparse.2.2
        exact ⟨by
          have := hrest.1
          have heq : i + 1 + m = i + (m + 1) := by omega
          rwa [heq] at this, hrest.2.1, hrest.2.2⟩
    · rw [if_neg hx]
      have hrest := ih (i + 1) res hb1 hs hn
      exact ⟨by
        have := hrest.1
        have heq : i + 1 + m = i + (m + 1) := by omega
        rwa [heq] at this, hrest.2.1, hrest.2.2⟩

theorem lookupCase_mem :
    ∀ (inner : List (String × List FailureRecord)) (n : String)
      (recs : List FailureRecord), lookupCase inner n = some recs →
      ∃ nf ∈ inner, nf.1 = n ∧ nf.2 = recs := by
  intro inner
  induction inner with
  | nil => intro n recs h; exact absurd h (by simp [lookupCase])
  | cons p rest ih =>
    intro n recs h
    by_cases hp : p.1 = n
    · rw [show lookupCase (p :: rest) n = some p.2 from by simp [lookupCase, hp]] at h
      exact ⟨p, List.mem_cons_self p rest, hp, (Option.some.injEq _ _).mp h⟩
    · rw [show lookupCase (p :: rest) n = lookupCase rest n from by
        simp [lookupCase, hp]] at h
      obtain ⟨nf, hnf, h1, h2⟩ := ih n recs h
      exact ⟨nf, List.mem_cons_of_mem p hnf, h1, h2⟩

theorem lookupId_mem :
    ∀ (res : Results) (c n : String) (recs : List FailureRecord),
      lookupId res c n = some recs →
      ∃ ci ∈ res, ci.1 = c ∧ ∃ nf ∈ ci.2, nf.1 = n ∧ nf.2 = recs := by
  intro res
  induction res with
  | nil => intro c n recs h; exact absurd h (by simp [lookupId])
  | cons p rest ih =>
    intro c n recs h
    by_cases hp : p.1 = c
    · rw [show lookupId (p :: rest) c n = lookupCase p.2 n from by
        simp [lookupId, hp]] at h
      obtain ⟨nf, hnf, h1, h2⟩ := lookupCase_mem p.2 n recs h
      exact ⟨p, List.mem_cons_self p rest, hp, nf, hnf, h1, h2⟩
    · rw [show lookupId (p :: rest) c n = lookupId rest c n from by
        simp [lookupId, hp]] at h
      obtain ⟨ci, hci, h1, h2⟩ := ih c n recs h
      exact ⟨ci, List.mem_cons_of_mem p hci, h1, h2⟩

theorem collectRecs_ne_nil_iff (ff : Bool) (envs : Nat → IterationEnv)
    (c n : String) (m i : Nat) :
    collectRecs ff envs c n m i ≠ [] ↔
      ∃ k, k < execCount ff envs m i ∧ (envs (i + k)).exitCode ≠ 0 ∧
        dirContributes c n (envs (i + k)).reportDir = true := by
  rw [Ne, collectRecs_eq_nil_iff]
  constructor
  · intro h
    by_contra hno
    apply h
    intro k hk
    rintro ⟨h1, h2⟩
    exact hno ⟨k, hk, h1, h2⟩
  · rintro ⟨k, hk, h1, h2⟩ hall
    exact hall k hk ⟨h1, h2⟩

theorem memId_runLoop (N : Nat) (ff : Bool) (envs : Nat → IterationEnv)
    (dir c n : String) :
    memId (runLoop N ff envs dir).results c n = true ↔
      ∃ k, k < execCount ff envs N 0 ∧ (envs k).exitCode ≠ 0 ∧
        dirContributes c n (envs k).reportDir = true := by
  unfold memId runLoop
  rw [lookupId_runAux dir ff envs c n N 0 [],
    show lookupId ([] : Results) c n = none from rfl]
  have hiff := collectRecs_ne_nil_iff ff envs c n N 0
  by_cases hc : collectRecs ff envs c n N 0 = []
  · rw [if_pos hc]
    simp only [Option.isSome_none, Bool.false_eq_true, false_iff]
    rintro ⟨k, hk, h1, h2⟩
    exact hiff.mpr ⟨k, hk, by rw [Nat.zero_add]; exact h1,
      by rw [Nat.zero_add]; exact h2⟩ hc
  · rw [if_neg hc]
    simp only [Option.isSome_some, true_iff]
    obtain ⟨k, hk, h1, h2⟩ := hiff.mp hc
    rw [Nat.zero_add] at h1 h2
    exact ⟨k, hk, h1, h2⟩

/-- C5 counterexample: one failing iteration whose report lists the
entries A.t1, B.t2, A.t3, A.t1 (the identity A.t1 twice), a run that
completes (runLoopE agrees).  The resulting structure holds two
records for A.t1 both with iteration index 0 — not strictly
increasing — and its flattened identity order A.t1, A.t3, B.t2
(grouped by class) differs from the first-seen identity order A.t1,
B.t2, A.t3. -/
theorem c5_counterexample :
    runLoopE 1 false envsDup "out/" = RunOut.ok (runLoop 1 false envsDup "out/")
    ∧ (runLoop 1 false envsDup "out/").results =
      [("A", [("t1", [⟨0, "m1"⟩, ⟨0, "m4"⟩]), ("t3", [⟨0, "m3"⟩])]),
       ("B", [("t2", [⟨0, "m2"⟩])])]
    ∧ ¬ List.Sorted (fun a b => a.iteration < b.iteration)
        ([⟨0, "m1"⟩, ⟨0, "m4"⟩] : List FailureRecord)
    ∧ flattenIds [("A", [("t1", [⟨0, "m1"⟩, ⟨0, "m4"⟩]), ("t3", [⟨0, "m3"⟩])]),
        ("B", [("t2", [⟨0, "m2"⟩])])] ≠ [("A", "t1"), ("B", "t2"), ("A", "t3")] := by
  refine ⟨by decide, by decide, ?_, by decide⟩
  intro hsort
  have hlt := List.rel_of_sorted_cons hsort ⟨0, "m4"⟩ (List.mem_singleton_self _)
  exact (by decide : ¬ ((0 : Nat) < 0)) hlt

/-- C5 (amended): in every run that completes without the TypeError
of the unguarded captured-output writes (an aborted run never reaches
the point after the loop), the aggregated results contain a test
identity if and only if some executed failing iteration's report
directory contributed a record for it; and each identity's record
list is non-empty and ordered by NON-decreasing iteration index
(several records of one identity from a single iteration's reports
share that index; the flattened identity order is grouped by class
name, not the global first-seen identity order). -/
theorem c5_amended_membership_order (N : Nat) (ff : Bool) (envs : Nat → IterationEnv)
    (dir c n : String) (r : RunResult)
    (hok : runLoopE N ff envs dir = RunOut.ok r) :
    (memId r.results c n = true ↔
      ∃ k, k < r.executions ∧ (envs k).exitCode ≠ 0 ∧
        dirContributes c n (envs k).reportDir = true)
    ∧ ∀ recs, lookupId r.results c n = some recs →
        recs ≠ [] ∧ List.Sorted (fun a b => a.iteration ≤ b.iteration) recs := by
  have hr : runLoop N ff envs dir = r := runLoopE_ok N ff envs dir r hok
  subst hr
  constructor
  · have hexec : (runLoop N ff envs dir).executions = execCount ff envs N 0 :=
      executions_runAux dir ff envs N 0 []
    rw [hexec]
    exact memId_runLoop N ff envs dir c n
  · intro recs hl
    have hinv := runAux_inv dir ff envs N 0 []
      (by intro ci hci; exact absurd hci (List.not_mem_nil ci))
      (by intro ci hci; exact absurd hci (List.not_mem_nil ci))
      (by intro ci hci; exact absurd hci (List.not_mem_nil ci))
    obtain ⟨ci, hci, _, nf, hnf, _, hrecs⟩ := lookupId_mem _ c n recs hl
    refine ⟨?_, ?_⟩
    · rw [← hrecs]
      exact hinv.2.2 ci hci nf hnf
    · rw [← hrecs]
      exact hinv.2.1 ci hci nf hnf

/-- C5 witness: the two-iteration all-failing run over the single
report entry A.t completes (runLoopE returns ok), and the identity
A.t holds the records of iterations 0 and 1, a non-empty list sorted
by non-decreasing iteration index. -/
theorem c5_witness :
    ([⟨0, "m"⟩, ⟨1, "m"⟩] : List FailureRecord) ≠ [] ∧
    List.Sorted (fun a b => a.iteration ≤ b.iteration)
      ([⟨0, "m"⟩, ⟨1, "m"⟩] : List FailureRecord) :=
  (c5_amended_membership_order 2 false envsOneCase "o/" "A" "t"
    (runLoop 2 false envsOneCase "o/") (by decide)).2
    [⟨0, "m"⟩, ⟨1, "m"⟩] (by decide)

end Flake
